import Mathlib

/-!
Shallow embedding of `src/excel_reader_visualizer.py` (class
`ExcelToMarkdownPreprocessor`): the region detector, header classifier,
table materializer, cell formatter, and paginator, together with proofs
of the structural properties claimed for them.

Coordinates are 1-based `(row, col)` pairs of naturals, as in openpyxl.
A sheet is modelled by its sparse cell store: the finite association list
of populated coordinates and their values (the Python code stores exactly
this, keyed by coordinate strings which biject with `(row, col)` pairs).
Python `float` cell values are modelled by rationals; the one floating
comparison in the code (`text_count / total_count > 0.7`) agrees with the
exact rational comparison for every denominator a sheet row can produce.
-/

namespace ExcelViz

/-- A populated cell's value: text, integer, float (modelled as `ℚ`) or
boolean, matching the `str` / `int` / `float` / `bool` cases the Python
code distinguishes with `isinstance`. -/
inductive CellValue where
  | text : String → CellValue
  | intVal : Int → CellValue
  | floatVal : ℚ → CellValue
  | boolVal : Bool → CellValue
deriving DecidableEq, Repr

/-- The sparse cell store of one sheet: populated `(row, col)` coordinates
with their values. -/
structure Grid where
  cells : List ((Nat × Nat) × CellValue)
deriving DecidableEq, Repr

/-- `sheet.cell(row=p.1, column=p.2).value`: `none` models Python `None`. -/
def Grid.val (g : Grid) (p : Nat × Nat) : Option CellValue :=
  (g.cells.find? (fun e => e.1 == p)).map (fun e => e.2)

/-- The populated coordinates. -/
def Grid.support (g : Grid) : List (Nat × Nat) :=
  g.cells.map Prod.fst

/-- Well-formedness: openpyxl rows and columns are 1-based. -/
def Grid.WF (g : Grid) : Prop :=
  ∀ p ∈ g.support, 1 ≤ p.1 ∧ 1 ≤ p.2

instance (g : Grid) : Decidable g.WF := by
  unfold Grid.WF
  infer_instance

theorem Grid.mem_support_of_val_isSome {g : Grid} {p : Nat × Nat}
    (h : (g.val p).isSome) : p ∈ g.support := by
  unfold Grid.val at h
  cases hf : g.cells.find? (fun e => e.1 == p) with
  | none => rw [hf] at h; simp at h
  | some e =>
    have hmem := List.mem_of_find?_eq_some hf
    have heq : e.1 = p := by
      have := List.find?_some hf
      simpa using this
    exact heq ▸ List.mem_map_of_mem Prod.fst hmem

/-- The 24 neighbour offsets of the BFS (`dr, dc ∈ [-2, 2]`, excluding
`(0, 0)`), in the order the nested Python loops produce them. -/
def offsets : List (Int × Int) :=
  (([-2, -1, 0, 1, 2] : List Int).flatMap fun dr =>
    (([-2, -1, 0, 1, 2] : List Int).map fun dc => (dr, dc))).filter
    (fun d => d ≠ ((0 : Int), (0 : Int)))

/-- The coordinates enqueued when the BFS processes `p` with visited set
`vis`: each offset applied to `p`, kept when both coordinates stay
positive and the target is not already visited (the Python guard
`new_row > 0 and new_col > 0 and (new_row, new_col) not in region_visited`). -/
def nbrs (vis : List (Nat × Nat)) (p : Nat × Nat) : List (Nat × Nat) :=
  offsets.filterMap fun d =>
    if 0 < (p.1 : Int) + d.1 ∧ 0 < (p.2 : Int) + d.2 ∧
        (((p.1 : Int) + d.1).toNat, ((p.2 : Int) + d.2).toNat) ∉ vis then
      some (((p.1 : Int) + d.1).toNat, ((p.2 : Int) + d.2).toNat)
    else
      none

/-- The `while queue:` loop of `_find_continuous_region`, with explicit
fuel. Each iteration pops the queue head; an already-visited coordinate
is skipped, an empty cell is dropped, and a populated cell is appended to
the visited list and its admissible neighbours are enqueued. `none`
means the fuel ran out before the queue emptied (shown below never to
happen for the fuel the callers pass). -/
def bfsAux (g : Grid) : Nat → List (Nat × Nat) → List (Nat × Nat) →
    Option (List (Nat × Nat))
  | 0, _, _ => none
  | _ + 1, [], vis => some vis
  | fuel + 1, p :: queue, vis =>
    if p ∈ vis then
      bfsAux g fuel queue vis
    else
      match g.val p with
      | none => bfsAux g fuel queue vis
      | some _ => bfsAux g fuel (queue ++ nbrs (vis ++ [p]) p) (vis ++ [p])

/-- Fuel sufficient for any BFS started from a single coordinate. -/
def bfsFuel (g : Grid) : Nat :=
  24 * g.support.length + 2

/-- The list of member coordinates `_find_continuous_region` collects in
`cells_in_region` (each member's value being `g.val` of its coordinate). -/
def regionCells (g : Grid) (start : Nat × Nat) : List (Nat × Nat) :=
  (bfsAux g (bfsFuel g) [start] []).getD []

/-- `_detect_header_row`: among the cells of `row` in columns
`minCol..maxCol`, the populated ones, in column order. -/
def headerRowCols (g : Grid) (row minCol maxCol : Nat) : List Nat :=
  ((List.range (maxCol + 1 - minCol)).map (fun i => minCol + i)).filter
    (fun c => (g.val (row, c)).isSome)

/-- `total_count` of `_detect_header_row`. -/
def headerTotal (g : Grid) (row minCol maxCol : Nat) : Nat :=
  (headerRowCols g row minCol maxCol).length

/-- Whether a stored value is a Python `str`. -/
def isTextVal : Option CellValue → Bool
  | some (.text _) => true
  | _ => false

/-- `text_count` of `_detect_header_row`. -/
def headerTexts (g : Grid) (row minCol maxCol : Nat) : Nat :=
  ((headerRowCols g row minCol maxCol).filter
    (fun c => isTextVal (g.val (row, c)))).length

/-- `_detect_header_row`: `text_count / total_count > 0.7` when the row
has populated cells, else `False`. The float comparison is embedded as
the exact comparison `10 * text_count > 7 * total_count`, with which it
agrees for every cell count a sheet row can hold. -/
def detectHeaderRow (g : Grid) (row minCol maxCol : Nat) : Bool :=
  if 0 < headerTotal g row minCol maxCol then
    decide (7 * headerTotal g row minCol maxCol <
      10 * headerTexts g row minCol maxCol)
  else
    false

/-- The record `_find_continuous_region` returns. -/
structure Region where
  minRow : Nat
  maxRow : Nat
  minCol : Nat
  maxCol : Nat
  cellCount : Nat
  cells : List (Nat × Nat)
  hasHeader : Bool
  headerRow : Option Nat
  type : String
deriving DecidableEq, Repr

/-- `_find_continuous_region(sheet, start_row, start_col, visited)`: BFS
member collection, incremental bounds (initialised at the start
coordinate), header detection on the topmost row. -/
def findContinuousRegion (g : Grid) (startRow startCol : Nat) : Region :=
  let cells := regionCells g (startRow, startCol)
  let minRow := cells.foldl (fun m c => min m c.1) startRow
  let maxRow := cells.foldl (fun m c => max m c.1) startRow
  let minCol := cells.foldl (fun m c => min m c.2) startCol
  let maxCol := cells.foldl (fun m c => max m c.2) startCol
  let hasHeader := detectHeaderRow g minRow minCol maxCol
  { minRow := minRow
    maxRow := maxRow
    minCol := minCol
    maxCol := maxCol
    cellCount := cells.length
    cells := cells
    hasHeader := hasHeader
    headerRow := if hasHeader then some minRow else none
    type := if hasHeader then "table" else "data_region" }

/-- The scan loop of `detect_table_structure`: walk the sheet's cells
(`scan` is the row-major coordinate enumeration `iter_rows` yields),
start a region at each populated, unvisited coordinate, mark its members
visited, and keep it when it has more than one member cell. Returns the
final visited list together with the detected regions. -/
def detectAux (g : Grid) :
    List (Nat × Nat) → List (Nat × Nat) → List Region →
    List (Nat × Nat) × List Region
  | [], visited, tables => (visited, tables)
  | p :: rest, visited, tables =>
    if (g.val p).isSome ∧ p ∉ visited then
      let table := findContinuousRegion g p.1 p.2
      let visited' := visited ++ table.cells
      if table.cellCount > 1 then
        detectAux g rest visited' (tables ++ [table])
      else
        detectAux g rest visited' tables
    else
      detectAux g rest visited tables

/-- `detect_table_structure(sheet)`. -/
def detectTableStructure (g : Grid) (scan : List (Nat × Nat)) : List Region :=
  (detectAux g scan [] []).2

/-! ## Pagination (`create_paged_visualizations_with_data`, lines 597-702) -/

/-- `num_row_pages` / `num_col_pages`:
`((maxV - minV + 1) + per - 1) // per`, the tile count along one axis. -/
def numPages (minV maxV per : Nat) : Nat :=
  ((maxV - minV + 1) + per - 1) / per

/-- The core tile rectangle along one axis, before overlap extension:
`page_min = minV + i * per`, `page_max = min(page_min + per - 1, maxV)`. -/
def coreRange (minV maxV per i : Nat) : Nat × Nat :=
  (minV + i * per, min (minV + i * per + per - 1) maxV)

/-- The final tile rectangle along one axis: the core, extended by
`overlap` (clamped to `maxV`) exactly when the tile is not the last one
on its axis. -/
def pageRange (minV maxV per overlap i : Nat) : Nat × Nat :=
  let core := coreRange minV maxV per i
  if i < numPages minV maxV per - 1 then
    (core.1, min (core.2 + overlap) maxV)
  else
    core

/-- The row-tiles of one pagination run, in order of `row_page`. -/
def rowTiles (minV maxV per overlap : Nat) : List (Nat × Nat) :=
  (List.range (numPages minV maxV per)).map (pageRange minV maxV per overlap)

/-! ## Cell formatting (`_format_cell_value`, lines 440-462) -/

/-- Round half to even, the rounding Python's fixed-point `format`
applies. -/
def rne (q : ℚ) : Int :=
  let f := ⌊q⌋
  let r := q - f
  if r < 1 / 2 then f
  else if 1 / 2 < r then f + 1
  else if f % 2 = 0 then f else f + 1

/-- The character of one decimal digit. -/
def digitChar (d : Nat) : Char :=
  Char.ofNat (48 + d)

/-- Little-endian base-10 digits, by structural recursion on a fuel
argument so that it evaluates inside the kernel; shown below to agree
with `Nat.digits 10`. -/
def natDigitsAux : Nat → Nat → List Nat
  | 0, _ => []
  | _ + 1, 0 => []
  | fuel + 1, n + 1 => ((n + 1) % 10) :: natDigitsAux fuel ((n + 1) / 10)

/-- Little-endian base-10 digits of `n`. -/
def natDigits (n : Nat) : List Nat :=
  natDigitsAux n n

/-- The decimal numeral of a natural number (what Python's `str` and
`format` print for the integral and fractional digit groups). -/
def natStr (n : Nat) : String :=
  if n = 0 then "0" else String.mk (((natDigits n).map digitChar).reverse)

/-- Python `str` of an `int`: decimal digits with a leading minus sign
for negative values. -/
def intStr (n : Int) : String :=
  (if n < 0 then "-" else "") ++ natStr n.natAbs

/-- Left-pad a string with zeros to length `d`. -/
def padZeros (d : Nat) (s : String) : String :=
  String.mk (List.replicate (d - s.length) '0') ++ s

/-- Python `f"{q:.df}"` for `d > 0`: the decimal numeral of `q` rounded
half-to-even to `d` fractional digits. -/
def formatFixed (q : ℚ) (d : Nat) : String :=
  (if q < 0 then "-" else "") ++
    natStr ((rne (|q| * (10 : ℚ) ^ d)).toNat / 10 ^ d) ++ "." ++
    padZeros d (natStr ((rne (|q| * (10 : ℚ) ^ d)).toNat % 10 ^ d))

/-- Whether the cell's number-format string triggers the percent branch:
`cell.number_format and '%' in str(cell.number_format)`. -/
def percentFormat (nf : String) : Bool :=
  nf ≠ "" ∧ '%' ∈ nf.toList

/-- `_format_cell_value(cell)` on a cell with value `v` and number
format `nf`. The branch order is the source's: `None`, `bool` (checked
before the numeric branch), `int`/`float` with a percent format, plain
`float`, plain `int`, and `str(value)` for everything else. -/
def formatCellValue (v : Option CellValue) (nf : String) : String :=
  match v with
  | none => ""
  | some (.boolVal b) => if b then "Yes" else "No"
  | some (.intVal n) =>
    if percentFormat nf then formatFixed ((n : ℚ) * 100) 1 ++ "%"
    else intStr n
  | some (.floatVal q) =>
    if percentFormat nf then formatFixed (q * 100) 1 ++ "%"
    else formatFixed q 2
  | some (.text s) => s

/-! ## Table materialization (`_extract_table_data`, lines 363-438) -/

/-- `str(value)` on a stored cell value. -/
def pyStr : CellValue → String
  | .text s => s
  | .intVal n => intStr n
  | .floatVal q => toString q
  | .boolVal b => if b then "True" else "False"

/-- One populated cell of a materialized data row
(`row`, `column`, value, `formatted_value`). -/
structure TableCell where
  row : Nat
  col : Nat
  value : CellValue
  formatted : String
deriving DecidableEq, Repr

/-- The structure `_extract_table_data` returns (the fields the claims
are about). -/
structure TableData where
  headers : List (String × Nat)
  data : List (Nat × List TableCell)
  alignment : String
deriving DecidableEq, Repr

/-- The bounds record of a region, as passed in `table_info['bounds']`. -/
structure Bounds where
  minRow : Nat
  maxRow : Nat
  minCol : Nat
  maxCol : Nat
deriving DecidableEq, Repr

/-- The inclusive coordinate interval `[lo, hi]` as a list. -/
def natRange (lo hi : Nat) : List Nat :=
  (List.range (hi + 1 - lo)).map (fun i => lo + i)

/-- The header extraction of `_extract_table_data`: when `has_header`,
the populated cells of the top row across `[minCol, maxCol]` in column
order, as `(str(value), column)`; empty header cells are skipped. -/
def extractHeaders (g : Grid) (b : Bounds) (hasHeader : Bool) :
    List (String × Nat) :=
  if hasHeader then
    (natRange b.minCol b.maxCol).filterMap fun c =>
      match g.val (b.minRow, c) with
      | some v => some (pyStr v, c)
      | none => none
  else []

/-- The data-row extraction of `_extract_table_data`: for each row from
`header_row + 1` (or `min_row` without a header) to `max_row`, the
populated cells with their formatted values; rows with no populated cell
are omitted. -/
def extractRows (g : Grid) (b : Bounds) (hasHeader : Bool) (nf : String) :
    List (Nat × List TableCell) :=
  let startRow := if hasHeader then b.minRow + 1 else b.minRow
  (natRange startRow b.maxRow).filterMap fun r =>
    let rowData := (natRange b.minCol b.maxCol).filterMap fun c =>
      match g.val (r, c) with
      | some v => some { row := r, col := c, value := v,
                         formatted := formatCellValue (some v) nf : TableCell }
      | none => none
    if rowData.isEmpty then none else some (r, rowData)

/-- `_extract_table_data(sheet, table_info)` with
`table_info['bounds'] = b` and `table_info['has_header'] = hasHeader`,
assuming each cell's number format is `nf` (the Python code reads it
per-cell; the claims do not depend on it varying). `alignment` starts
`'unknown'` and is set to `'vertical'` or `'horizontal'` only when at
least one header was extracted. -/
def extractTableData (g : Grid) (b : Bounds) (hasHeader : Bool)
    (nf : String) : TableData :=
  { headers := extractHeaders g b hasHeader
    data := extractRows g b hasHeader nf
    alignment :=
      if (extractHeaders g b hasHeader).length > 0 then
        if (extractRows g b hasHeader nf).length >
            (extractHeaders g b hasHeader).length then "vertical"
        else "horizontal"
      else "unknown" }

/-! ## The primary pipeline (`extract_structured_data`,
`create_paged_visualizations_with_data`, `export_for_ai_processing`) -/

/-- A merged-cell record as stored in `sheet_data['merged']` (bounds
plus anchor value). -/
structure MergedRange where
  bounds : Bounds
  value : Option CellValue
deriving DecidableEq, Repr

/-- A table record as stored in `sheet_data['tables']`. -/
structure TableRange where
  bounds : Bounds
  hasHeader : Bool
deriving DecidableEq, Repr

/-- The per-sheet structure `extract_structured_data` returns. -/
structure SheetData where
  cells : List ((Nat × Nat) × CellValue)
  merged : List MergedRange
  tables : List TableRange
  dataBounds : Option Bounds
deriving DecidableEq, Repr

/-- Whether `p` lies in the (inclusive) rectangle `b`. -/
def inBounds (b : Bounds) (p : Nat × Nat) : Prop :=
  b.minRow ≤ p.1 ∧ p.1 ≤ b.maxRow ∧ b.minCol ≤ p.2 ∧ p.2 ≤ b.maxCol

instance (b : Bounds) (p : Nat × Nat) : Decidable (inBounds b p) := by
  unfold inBounds; infer_instance

/-- The `data_bounds` computation of `extract_structured_data`: running
min/max over the recorded cells, `None` when no cell was recorded. -/
def computeDataBounds : List ((Nat × Nat) × CellValue) → Option Bounds
  | [] => none
  | c :: rest =>
    some (rest.foldl
      (fun b e =>
        { minRow := min b.minRow e.1.1, maxRow := max b.maxRow e.1.1,
          minCol := min b.minCol e.1.2, maxCol := max b.maxCol e.1.2 })
      { minRow := c.1.1, maxRow := c.1.1, minCol := c.1.2, maxCol := c.1.2 })

/-- `extract_structured_data(sheet_name)` for one sheet with optional
print-area bounds `pa`: records the populated cells (restricted to the
print area when one is given), leaves `merged` and `tables` as the empty
lists they are initialised to (nothing on this path ever appends to
them), and computes `data_bounds`. -/
def extractStructuredData (g : Grid) (pa : Option Bounds) : SheetData :=
  let cells := g.cells.filter fun e =>
    match pa with
    | none => true
    | some b => decide (inBounds b e.1)
  { cells := cells, merged := [], tables := [],
    dataBounds := computeDataBounds cells }

/-- One page produced by `create_paged_visualizations_with_data`. -/
structure PageData where
  minRow : Nat
  maxRow : Nat
  minCol : Nat
  maxCol : Nat
  cells : List ((Nat × Nat) × CellValue)
  tables : List TableRange
  merged : List MergedRange
  cellCount : Nat
  tableCount : Nat
  mergedCount : Nat
deriving DecidableEq, Repr

/-- The rectangle-intersection test of the pagination loops. -/
def rectIntersects (b : Bounds) (pminR pmaxR pminC pmaxC : Nat) : Bool :=
  decide (b.minRow ≤ pmaxR ∧ pminR ≤ b.maxRow ∧
    b.minCol ≤ pmaxC ∧ pminC ≤ b.maxCol)

/-- `create_paged_visualizations_with_data`: one `PageData` per
(row-tile, column-tile) pair in row-major order, each holding the cells
inside its overlap-extended rectangle and the tables/merges whose bounds
intersect it. Yields `[]` when the sheet has no data bounds. -/
def createPagedVisualizationsWithData (sd : SheetData)
    (rowsPerPage colsPerPage overlap : Nat) : List PageData :=
  match sd.dataBounds with
  | none => []
  | some b =>
    (List.range (numPages b.minRow b.maxRow rowsPerPage)).flatMap fun i =>
      (List.range (numPages b.minCol b.maxCol colsPerPage)).map fun j =>
        let rr := pageRange b.minRow b.maxRow rowsPerPage overlap i
        let cr := pageRange b.minCol b.maxCol colsPerPage overlap j
        let pageCells := sd.cells.filter fun e =>
          decide (rr.1 ≤ e.1.1 ∧ e.1.1 ≤ rr.2 ∧ cr.1 ≤ e.1.2 ∧ e.1.2 ≤ cr.2)
        let pageTables := sd.tables.filter fun t =>
          rectIntersects t.bounds rr.1 rr.2 cr.1 cr.2
        let pageMerged := sd.merged.filter fun m =>
          rectIntersects m.bounds rr.1 rr.2 cr.1 cr.2
        { minRow := rr.1, maxRow := rr.2, minCol := cr.1, maxCol := cr.2,
          cells := pageCells, tables := pageTables, merged := pageMerged,
          cellCount := pageCells.length, tableCount := pageTables.length,
          mergedCount := pageMerged.length }

/-- The `meta` block `export_for_ai_processing` writes for a paginated
sheet. -/
structure ExportMeta where
  totalCells : Nat
  totalTables : Nat
  totalMerged : Nat
  pageCount : Nat
deriving DecidableEq, Repr

/-- The paginated export of `export_for_ai_processing` for one sheet:
extraction, pagination, and the `meta` summary counts. -/
def exportForAIProcessing (g : Grid) (pa : Option Bounds)
    (rowsPerPage colsPerPage overlap : Nat) : ExportMeta × List PageData :=
  let sd := extractStructuredData g pa
  let pages := createPagedVisualizationsWithData sd rowsPerPage colsPerPage overlap
  ({ totalCells := sd.cells.length, totalTables := sd.tables.length,
     totalMerged := sd.merged.length, pageCount := pages.length }, pages)

/-! ## Specification-side predicates -/

/-- The adjacency relation the BFS explores: `q` is reachable in one
expansion step from the populated cell `p` when `q` is populated, has
positive (1-based) coordinates, and lies within Chebyshev distance 2 of
`p` (but is not `p` itself). -/
def Adj (g : Grid) (p q : Nat × Nat) : Prop :=
  (g.val p).isSome ∧ (g.val q).isSome ∧ 1 ≤ q.1 ∧ 1 ≤ q.2 ∧
    ((q.1 : Int) - (p.1 : Int), (q.2 : Int) - (p.2 : Int)) ∈ offsets

instance (g : Grid) (p q : Nat × Nat) : Decidable (Adj g p q) := by
  unfold Adj
  infer_instance

/-- Connectivity: the reflexive transitive closure of `Adj`. Two
populated cells are in the same cluster exactly when `Reach` relates
them. -/
def Reach (g : Grid) : Nat × Nat → Nat × Nat → Prop :=
  Relation.ReflTransGen (Adj g)

/-- A region's bounding box is tight: it contains every member cell and
each of its four bounds is achieved by some member cell. -/
def TightBounds (t : Region) : Prop :=
  (∀ c ∈ t.cells,
    t.minRow ≤ c.1 ∧ c.1 ≤ t.maxRow ∧ t.minCol ≤ c.2 ∧ c.2 ≤ t.maxCol) ∧
  (∃ c ∈ t.cells, c.1 = t.minRow) ∧ (∃ c ∈ t.cells, c.1 = t.maxRow) ∧
  (∃ c ∈ t.cells, c.2 = t.minCol) ∧ (∃ c ∈ t.cells, c.2 = t.maxCol)

/-- The loop invariant of `detect_table_structure`'s scan: visited cells
are populated and closed under adjacency, reported regions are pairwise
cell-disjoint, their member cells are visited, every visited cell with a
neighbour lies in some reported region, and every reported member cell
has a neighbour. -/
def DetectInv (g : Grid) (visited : List (Nat × Nat))
    (tables : List Region) : Prop :=
  (∀ p ∈ visited, (g.val p).isSome) ∧
  (∀ p ∈ visited, ∀ z, Adj g p z → z ∈ visited) ∧
  List.Pairwise (fun t u => ∀ z ∈ Region.cells t, z ∉ Region.cells u) tables ∧
  (∀ t ∈ tables, ∀ z ∈ Region.cells t, z ∈ visited) ∧
  (∀ p ∈ visited, (∃ z, Adj g p z) → ∃ t ∈ tables, p ∈ Region.cells t) ∧
  (∀ t ∈ tables, ∀ p ∈ Region.cells t, ∃ z, Adj g p z)

/-- The shape "optional sign, then decimal digits, then a decimal point,
then exactly `d` decimal digits". -/
def fixedShape (s : String) (d : Nat) : Prop :=
  ∃ sign intPart fracPart,
    s = sign ++ intPart ++ "." ++ fracPart ∧
    (sign = "" ∨ sign = "-") ∧
    intPart ≠ "" ∧ (∀ c ∈ intPart.toList, c.isDigit) ∧
    fracPart.length = d ∧ (∀ c ∈ fracPart.toList, c.isDigit)

/-! ## Concrete sheets used as test inputs -/

/-- A sheet whose first row has 10 populated cells, 7 of them text:
exactly the 70% boundary case of header detection. -/
def gRow70 : Grid :=
  ⟨(List.range 7).map (fun i => ((1, i + 1), CellValue.text "h")) ++
    (List.range 3).map (fun i => ((1, i + 8), CellValue.intVal 0))⟩

/-- A two-cell key/value style column with no header. -/
def gKV : Grid :=
  ⟨[((1, 1), CellValue.intVal 1), ((2, 1), CellValue.intVal 2)]⟩

/-- A sheet with one two-cell cluster (`A1:B1`) and one isolated cell at
`(9, 9)`. -/
def gPair : Grid :=
  ⟨[((1, 1), CellValue.text "a"), ((1, 2), CellValue.intVal 1),
    ((9, 9), CellValue.intVal 5)]⟩

/-- A row-major scan of rows 1-9, columns 1-9, covering `gPair`'s
populated cells (the coordinates `iter_rows` would yield). -/
def scanPair : List (Nat × Nat) :=
  (List.range 9).flatMap fun r => (List.range 9).map fun c => (r + 1, c + 1)

/-- The region grown from `A1` of `gPair`. -/
def regionPair : Region :=
  findContinuousRegion gPair 1 1

/-- The first page of the paginated export of `gPair`. -/
def pagePair : PageData :=
  ((exportForAIProcessing gPair none 5 10 2).2).getD 0
    ⟨0, 0, 0, 0, [], [], [], 0, 0, 0⟩

/-! # Theorems

## Decimal-renderer lemmas -/

theorem natDigitsAux_eq_digits (fuel : Nat) :
    ∀ n, n ≤ fuel → natDigitsAux fuel n = Nat.digits 10 n := by
  induction fuel with
  | zero =>
    intro n hn
    obtain rfl : n = 0 := Nat.le_zero.mp hn
    simp [natDigitsAux]
  | succ fuel ih =>
    intro n hn
    match n with
    | 0 => simp [natDigitsAux]
    | n + 1 =>
      rw [natDigitsAux, ih ((n + 1) / 10)
        (by
          have := Nat.div_lt_self (Nat.succ_pos n) (by norm_num : 1 < 10)
          omega),
        (Nat.digits_of_two_le_of_pos (by norm_num) (Nat.succ_pos n)).symm]

theorem natDigits_eq_digits (n : Nat) : natDigits n = Nat.digits 10 n :=
  natDigitsAux_eq_digits n n le_rfl

theorem digitChar_isDigit {d : Nat} (h : d < 10) : (digitChar d).isDigit := by
  interval_cases d <;> decide

theorem natStr_ne_empty (n : Nat) : natStr n ≠ "" := by
  unfold natStr
  split
  · decide
  · intro hc
    have hlen : (String.mk (((natDigits n).map digitChar).reverse)).length = 0 := by
      rw [hc]; rfl
    simp only [String.length, List.length_reverse, List.length_map] at hlen
    rw [natDigits_eq_digits] at hlen
    exact (Nat.digits_ne_nil_iff_ne_zero.mpr (by assumption)) (List.length_eq_zero.mp hlen)

theorem natStr_chars (n : Nat) : ∀ c ∈ (natStr n).toList, c.isDigit := by
  unfold natStr
  split
  · intro c hc
    have hc' : c ∈ ['0'] := hc
    simp only [List.mem_singleton] at hc'
    subst hc'
    decide
  · intro c hc
    have hc' : c ∈ ((natDigits n).map digitChar).reverse := hc
    rw [List.mem_reverse, List.mem_map] at hc'
    obtain ⟨d, hd, rfl⟩ := hc'
    rw [natDigits_eq_digits] at hd
    exact digitChar_isDigit (Nat.digits_lt_base (by norm_num) hd)

theorem natStr_length_le {n d : Nat} (hd : 0 < d) (h : n < 10 ^ d) :
    (natStr n).length ≤ d := by
  unfold natStr
  split
  · exact hd
  · simp only [String.length, List.length_reverse, List.length_map]
    rw [natDigits_eq_digits,
      Nat.digits_len 10 n (by norm_num) (by assumption)]
    have := (Nat.lt_pow_iff_log_lt (by norm_num : 1 < 10) (by assumption)).mp h
    omega

theorem padZeros_length {d : Nat} {s : String} (h : s.length ≤ d) :
    (padZeros d s).length = d := by
  have h1 : (padZeros d s).length =
      (List.replicate (d - s.length) '0' ++ s.data).length := rfl
  have h2 : s.length = s.data.length := rfl
  rw [h1, List.length_append, List.length_replicate]
  omega

theorem padZeros_chars (d : Nat) (s : String) :
    ∀ c ∈ (padZeros d s).toList, c = '0' ∨ c ∈ s.toList := by
  intro c hc
  have hc' : c ∈ List.replicate (d - s.length) '0' ++ s.data := hc
  rcases List.mem_append.mp hc' with h | h
  · exact Or.inl (List.eq_of_mem_replicate h)
  · exact Or.inr h

theorem rne_intCast (z : Int) : rne (z : ℚ) = z := by
  unfold rne
  rw [Int.floor_intCast]
  norm_num

theorem formatFixed_quarter : formatFixed ((1 / 4 : ℚ) * 100) 1 = "25.0" := by
  unfold formatFixed
  have h1 : |(1 / 4 : ℚ) * 100| * (10 : ℚ) ^ 1 = ((250 : Int) : ℚ) := by
    norm_num
  have h2 : ¬ (1 / 4 : ℚ) * 100 < 0 := by norm_num
  rw [h1, rne_intCast, if_neg h2]
  decide

theorem formatFixed_shape (q : ℚ) {d : Nat} (hd : 0 < d) :
    fixedShape (formatFixed q d) d := by
  refine ⟨if q < 0 then "-" else "",
    natStr ((rne (|q| * (10 : ℚ) ^ d)).toNat / 10 ^ d),
    padZeros d (natStr ((rne (|q| * (10 : ℚ) ^ d)).toNat % 10 ^ d)),
    rfl, ?_, natStr_ne_empty _, natStr_chars _, ?_, ?_⟩
  · split
    · right; rfl
    · left; rfl
  · exact padZeros_length (natStr_length_le hd
      (Nat.mod_lt _ (Nat.pos_pow_of_pos d (by norm_num))))
  · intro c hc
    rcases padZeros_chars _ _ c hc with rfl | h
    · decide
    · exact natStr_chars _ c h

/-! ## BFS region growth: soundness, completeness, termination -/

theorem offsets_neg {d : Int × Int} (h : d ∈ offsets) : (-d.1, -d.2) ∈ offsets := by
  have hall : ∀ e ∈ offsets, (-(Prod.fst e), -(Prod.snd e)) ∈ offsets := by decide
  exact hall d h

theorem zero_not_mem_offsets : ((0 : Int), (0 : Int)) ∉ offsets := by decide

theorem mem_nbrs {vis : List (Nat × Nat)} {p q : Nat × Nat} :
    q ∈ nbrs vis p ↔
      0 < q.1 ∧ 0 < q.2 ∧ q ∉ vis ∧
        ((q.1 : Int) - (p.1 : Int), (q.2 : Int) - (p.2 : Int)) ∈ offsets := by
  unfold nbrs
  rw [List.mem_filterMap]
  constructor
  · rintro ⟨d, hd, hq⟩
    split at hq
    case isTrue hcond =>
      obtain ⟨h1, h2, h3⟩ := hcond
      injection hq with hq
      subst hq
      refine ⟨by omega, by omega, h3, ?_⟩
      have e1 : ((((p.1 : Int) + d.1).toNat : Int)) - (p.1 : Int) = d.1 := by omega
      have e2 : ((((p.2 : Int) + d.2).toNat : Int)) - (p.2 : Int) = d.2 := by omega
      rw [e1, e2]
      exact hd
    case isFalse => exact absurd hq (by simp)
  · rintro ⟨h1, h2, h3, h4⟩
    refine ⟨((q.1 : Int) - (p.1 : Int), (q.2 : Int) - (p.2 : Int)), h4, ?_⟩
    have e1 : (p.1 : Int) + ((q.1 : Int) - (p.1 : Int)) = (q.1 : Int) := by ring
    have e2 : (p.2 : Int) + ((q.2 : Int) - (p.2 : Int)) = (q.2 : Int) := by ring
    simp only [e1, e2, Int.toNat_natCast]
    rw [if_pos ⟨by exact_mod_cast h1, by exact_mod_cast h2, h3⟩]

theorem nbrs_length_le (vis : List (Nat × Nat)) (p : Nat × Nat) :
    (nbrs vis p).length ≤ 24 := by
  have h := List.length_filterMap_le
    (fun d : Int × Int =>
      if 0 < (p.1 : Int) + d.1 ∧ 0 < (p.2 : Int) + d.2 ∧
          (((p.1 : Int) + d.1).toNat, ((p.2 : Int) + d.2).toNat) ∉ vis then
        some (((p.1 : Int) + d.1).toNat, ((p.2 : Int) + d.2).toNat)
      else none) offsets
  have hlen : offsets.length = 24 := by decide
  unfold nbrs
  omega

theorem bfsAux_subset {g : Grid} : ∀ {fuel : Nat}
    {queue vis out : List (Nat × Nat)},
    bfsAux g fuel queue vis = some out → vis ⊆ out := by
  intro fuel
  induction fuel with
  | zero => intro queue vis out h; simp [bfsAux] at h
  | succ fuel ih =>
    intro queue vis out h
    match queue with
    | [] =>
      simp only [bfsAux, Option.some_inj] at h
      exact h ▸ List.Subset.refl vis
    | p :: queue =>
      rw [bfsAux] at h
      by_cases hp : p ∈ vis
      · rw [if_pos hp] at h
        exact ih h
      · rw [if_neg hp] at h
        cases hval : g.val p with
        | none =>
          rw [hval] at h
          exact ih h
        | some v =>
          rw [hval] at h
          exact fun x hx => ih h (List.mem_append_left _ hx)

theorem bfsAux_nodup {g : Grid} : ∀ {fuel : Nat}
    {queue vis out : List (Nat × Nat)},
    bfsAux g fuel queue vis = some out → vis.Nodup → out.Nodup := by
  intro fuel
  induction fuel with
  | zero => intro queue vis out h _; simp [bfsAux] at h
  | succ fuel ih =>
    intro queue vis out h hnd
    match queue with
    | [] =>
      simp only [bfsAux, Option.some_inj] at h
      exact h ▸ hnd
    | p :: queue =>
      rw [bfsAux] at h
      by_cases hp : p ∈ vis
      · rw [if_pos hp] at h
        exact ih h hnd
      · rw [if_neg hp] at h
        cases hval : g.val p with
        | none =>
          rw [hval] at h
          exact ih h hnd
        | some v =>
          rw [hval] at h
          refine ih h ?_
          rw [List.nodup_append]
          refine ⟨hnd, List.nodup_singleton p, ?_⟩
          intro a ha hap
          rw [List.mem_singleton] at hap
          subst hap
          exact hp ha

theorem bfsAux_sound {g : Grid} : ∀ {fuel : Nat}
    {queue vis out : List (Nat × Nat)},
    bfsAux g fuel queue vis = some out →
    ∀ z ∈ out, z ∈ vis ∨ ((g.val z).isSome ∧ ∃ q ∈ queue, Reach g q z) := by
  intro fuel
  induction fuel with
  | zero => intro queue vis out h; simp [bfsAux] at h
  | succ fuel ih =>
    intro queue vis out h
    match queue with
    | [] =>
      simp only [bfsAux, Option.some_inj] at h
      exact fun z hz => Or.inl (h ▸ hz)
    | p :: queue =>
      rw [bfsAux] at h
      by_cases hp : p ∈ vis
      · rw [if_pos hp] at h
        intro z hz
        rcases ih h z hz with h' | ⟨hs, q, hq, hr⟩
        · exact Or.inl h'
        · exact Or.inr ⟨hs, q, List.mem_cons_of_mem _ hq, hr⟩
      · rw [if_neg hp] at h
        cases hval : g.val p with
        | none =>
          rw [hval] at h
          intro z hz
          rcases ih h z hz with h' | ⟨hs, q, hq, hr⟩
          · exact Or.inl h'
          · exact Or.inr ⟨hs, q, List.mem_cons_of_mem _ hq, hr⟩
        | some v =>
          rw [hval] at h
          intro z hz
          rcases ih h z hz with h' | ⟨hs, q, hq, hr⟩
          · rcases List.mem_append.mp h' with h'' | h''
            · exact Or.inl h''
            · rw [List.mem_singleton] at h''
              refine Or.inr ⟨?_, p, List.mem_cons_self p queue, ?_⟩
              · rw [h'', hval]; rfl
              · rw [h'']
                exact Relation.ReflTransGen.refl
          · rcases List.mem_append.mp hq with h'' | h''
            · exact Or.inr ⟨hs, q, List.mem_cons_of_mem _ h'', hr⟩
            · have hq' := mem_nbrs.mp h''
              have hqsome : (g.val q).isSome := by
                rcases Relation.ReflTransGen.cases_head hr with heq | ⟨c, hc, -⟩
                · exact heq ▸ hs
                · exact hc.1
              have hadj : Adj g p q :=
                ⟨by rw [hval]; rfl, hqsome, hq'.1, hq'.2.1, hq'.2.2.2⟩
              exact Or.inr ⟨hs, p, List.mem_cons_self p queue,
                Relation.ReflTransGen.head hadj hr⟩

theorem bfsAux_queue_mem {g : Grid} : ∀ {fuel : Nat}
    {queue vis out : List (Nat × Nat)},
    bfsAux g fuel queue vis = some out →
    ∀ q ∈ queue, (g.val q).isSome → q ∈ out := by
  intro fuel
  induction fuel with
  | zero => intro queue vis out h; simp [bfsAux] at h
  | succ fuel ih =>
    intro queue vis out h
    match queue with
    | [] => intro q hq; cases hq
    | p :: queue =>
      rw [bfsAux] at h
      by_cases hp : p ∈ vis
      · rw [if_pos hp] at h
        intro q hq hsome
        rcases List.mem_cons.mp hq with rfl | hq'
        · exact bfsAux_subset h hp
        · exact ih h q hq' hsome
      · rw [if_neg hp] at h
        cases hval : g.val p with
        | none =>
          rw [hval] at h
          intro q hq hsome
          rcases List.mem_cons.mp hq with rfl | hq'
          · rw [hval] at hsome; cases hsome
          · exact ih h q hq' hsome
        | some v =>
          rw [hval] at h
          intro q hq hsome
          rcases List.mem_cons.mp hq with rfl | hq'
          · exact bfsAux_subset h (List.mem_append_right _ (List.mem_singleton_self q))
          · exact ih h q (List.mem_append_left _ hq') hsome

theorem bfsAux_closed {g : Grid} : ∀ {fuel : Nat}
    {queue vis out : List (Nat × Nat)},
    bfsAux g fuel queue vis = some out →
    (∀ w ∈ vis, ∀ z, Adj g w z → z ∈ vis ∨ z ∈ queue) →
    ∀ w ∈ out, ∀ z, Adj g w z → z ∈ out := by
  intro fuel
  induction fuel with
  | zero => intro queue vis out h; simp [bfsAux] at h
  | succ fuel ih =>
    intro queue vis out h hinv
    match queue with
    | [] =>
      simp only [bfsAux, Option.some_inj] at h
      subst h
      intro w hw z hadj
      rcases hinv w hw z hadj with h' | h'
      · exact h'
      · cases h'
    | p :: queue =>
      rw [bfsAux] at h
      by_cases hp : p ∈ vis
      · rw [if_pos hp] at h
        refine ih h ?_
        intro w hw z hadj
        rcases hinv w hw z hadj with h' | h'
        · exact Or.inl h'
        · rcases List.mem_cons.mp h' with rfl | h''
          · exact Or.inl hp
          · exact Or.inr h''
      · rw [if_neg hp] at h
        cases hval : g.val p with
        | none =>
          rw [hval] at h
          refine ih h ?_
          intro w hw z hadj
          rcases hinv w hw z hadj with h' | h'
          · exact Or.inl h'
          · rcases List.mem_cons.mp h' with rfl | h''
            · exfalso
              have := hadj.2.1
              rw [hval] at this
              cases this
            · exact Or.inr h''
        | some v =>
          rw [hval] at h
          refine ih h ?_
          intro w hw z hadj
          rcases List.mem_append.mp hw with hw' | hw'
          · rcases hinv w hw' z hadj with h' | h'
            · exact Or.inl (List.mem_append_left _ h')
            · rcases List.mem_cons.mp h' with rfl | h''
              · exact Or.inl (List.mem_append_right _ (List.mem_singleton_self z))
              · exact Or.inr (List.mem_append_left _ h'')
          · rw [List.mem_singleton] at hw'
            subst hw'
            by_cases hz : z ∈ vis ++ [w]
            · exact Or.inl hz
            · refine Or.inr (List.mem_append_right _ (mem_nbrs.mpr ?_))
              exact ⟨hadj.2.2.1, hadj.2.2.2.1, hz, hadj.2.2.2.2⟩

theorem length_filter_le_of_imp {α : Type} {p q : α → Bool}
    (h : ∀ a, q a = true → p a = true) :
    ∀ l : List α, (l.filter q).length ≤ (l.filter p).length := by
  intro l
  induction l with
  | nil => simp
  | cons a l ih =>
    rw [List.filter_cons, List.filter_cons]
    by_cases hq : q a = true
    · rw [if_pos hq, if_pos (h a hq)]
      simpa using ih
    · rw [if_neg hq]
      split
      · simp only [List.length_cons]
        omega
      · exact ih

theorem length_filter_visit_lt {l vis : List (Nat × Nat)} {p : Nat × Nat}
    (hp : p ∈ l) (hpv : p ∉ vis) :
    (l.filter (fun s => s ∉ vis ++ [p])).length <
      (l.filter (fun s => s ∉ vis)).length := by
  induction l with
  | nil => cases hp
  | cons a l ih =>
    rw [List.filter_cons, List.filter_cons]
    by_cases hap : a = p
    · subst hap
      have h1 : (decide (a ∉ vis ++ [a])) = false := by
        simp
      have h2 : (decide (a ∉ vis)) = true := by
        simpa using hpv
      rw [h1, h2, if_neg (by simp), if_pos rfl]
      simp only [List.length_cons]
      have hmono := length_filter_le_of_imp
        (p := fun s => decide (s ∉ vis)) (q := fun s => decide (s ∉ vis ++ [a]))
        (by
          intro x hx
          simp only [decide_eq_true_eq, List.mem_append] at hx ⊢
          exact fun hvx => hx (Or.inl hvx)) l
      omega
    · have hpl : p ∈ l := by
        rcases List.mem_cons.mp hp with h' | h'
        · exact absurd h'.symm hap
        · exact h'
      have hiff : (a ∉ vis ++ [p]) ↔ (a ∉ vis) := by
        simp only [List.mem_append, List.mem_singleton]
        constructor
        · intro h' hv
          exact h' (Or.inl hv)
        · intro h' hv
          rcases hv with hv | hv
          · exact h' hv
          · exact hap hv
      have hsame : (decide (a ∉ vis ++ [p])) = (decide (a ∉ vis)) := by
        rw [decide_eq_decide]
        exact hiff
      rw [hsame]
      split
      · simp only [List.length_cons]
        have := ih hpl
        omega
      · exact ih hpl

theorem bfsAux_isSome {g : Grid} : ∀ {fuel : Nat}
    {queue vis : List (Nat × Nat)},
    queue.length + 24 * (g.support.filter (fun s => s ∉ vis)).length < fuel →
    (bfsAux g fuel queue vis).isSome := by
  intro fuel
  induction fuel with
  | zero => intro queue vis h; omega
  | succ fuel ih =>
    intro queue vis h
    match queue with
    | [] => rw [bfsAux]; rfl
    | p :: queue =>
      rw [bfsAux]
      by_cases hp : p ∈ vis
      · rw [if_pos hp]
        refine ih ?_
        simp only [List.length_cons] at h
        omega
      · rw [if_neg hp]
        cases hval : g.val p with
        | none =>
          refine ih ?_
          simp only [List.length_cons] at h
          omega
        | some v =>
          refine ih ?_
          have hnl := nbrs_length_le (vis ++ [p]) p
          have hdec := @length_filter_visit_lt g.support vis p
            (Grid.mem_support_of_val_isSome (by rw [hval]; rfl)) hp
          rw [List.length_append]
          simp only [List.length_cons] at h
          omega

theorem adj_symm {g : Grid} (hWF : g.WF) {p q : Nat × Nat} (h : Adj g p q) :
    Adj g q p := by
  obtain ⟨hp, hq, hq1, hq2, hd⟩ := h
  have hppos := hWF _ (Grid.mem_support_of_val_isSome hp)
  refine ⟨hq, hp, hppos.1, hppos.2, ?_⟩
  have hneg := offsets_neg hd
  have e : ((p.1 : Int) - (q.1 : Int), (p.2 : Int) - (q.2 : Int)) =
      (-((q.1 : Int) - (p.1 : Int)), -((q.2 : Int) - (p.2 : Int))) := by
    simp only [Prod.mk.injEq]
    constructor <;> ring
  rw [e]
  exact hneg

theorem reach_symm {g : Grid} (hWF : g.WF) {p q : Nat × Nat}
    (h : Reach g p q) : Reach g q p :=
  Relation.ReflTransGen.symmetric (fun _ _ hh => adj_symm hWF hh) h

theorem adj_irrefl (g : Grid) (p : Nat × Nat) : ¬ Adj g p p := by
  rintro ⟨-, -, -, -, hd⟩
  have e : ((p.1 : Int) - (p.1 : Int), (p.2 : Int) - (p.2 : Int)) =
      ((0 : Int), (0 : Int)) := by simp
  rw [e] at hd
  exact zero_not_mem_offsets hd

theorem mem_of_reach_of_closed {g : Grid} {vis : List (Nat × Nat)}
    (hcl : ∀ w ∈ vis, ∀ z, Adj g w z → z ∈ vis) {a b : Nat × Nat}
    (ha : a ∈ vis) (hab : Reach g a b) : b ∈ vis := by
  induction hab with
  | refl => exact ha
  | tail hab hbc ih => exact hcl _ ih _ hbc

theorem exists_ne_of_one_lt_length {α : Type} :
    ∀ {l : List α}, l.Nodup → ∀ {x : α}, x ∈ l → 1 < l.length →
      ∃ y ∈ l, y ≠ x := by
  intro l
  match l with
  | [] => intro _ x hx; cases hx
  | [a] => intro _ x _ hlen; simp at hlen
  | a :: b :: t =>
    intro hnd x hx _
    by_cases hax : a = x
    · refine ⟨b, List.mem_cons_of_mem _ (List.mem_cons_self b t), ?_⟩
      intro hbx
      have : a ∉ b :: t := (List.nodup_cons.mp hnd).1
      exact this (by rw [hax, ← hbx]; exact List.mem_cons_self b t)
    · exact ⟨a, List.mem_cons_self _ _, hax⟩

theorem regionCells_spec {g : Grid} {s : Nat × Nat}
    (hs : (g.val s).isSome) :
    ∀ z, z ∈ regionCells g s ↔ Reach g s z ∧ (g.val z).isSome := by
  have hk : (g.support.filter
      (fun x => x ∉ ([] : List (Nat × Nat)))).length ≤ g.support.length :=
    List.length_filter_le _ _
  have hfuel : ([s] : List (Nat × Nat)).length +
      24 * (g.support.filter
        (fun x => x ∉ ([] : List (Nat × Nat)))).length < bfsFuel g := by
    unfold bfsFuel
    simp only [List.length_singleton]
    omega
  have hsome := bfsAux_isSome (g := g) hfuel
  rw [Option.isSome_iff_exists] at hsome
  obtain ⟨out, hout⟩ := hsome
  have hreg : regionCells g s = out := by
    unfold regionCells bfsFuel
    unfold bfsFuel at hout
    rw [hout]
    rfl
  intro z
  rw [hreg]
  have hclosed := bfsAux_closed hout (by intro w hw; cases hw)
  have hstart : s ∈ out := bfsAux_queue_mem hout s (List.mem_singleton_self s) hs
  have hmem : ∀ y, Reach g s y → y ∈ out := by
    intro y hy
    induction hy with
    | refl => exact hstart
    | tail hab hbc ih => exact hclosed _ ih _ hbc
  constructor
  · intro hz
    rcases bfsAux_sound hout z hz with hz' | ⟨hsome', q, hq, hreach⟩
    · cases hz'
    · rw [List.mem_singleton] at hq
      subst hq
      exact ⟨hreach, hsome'⟩
  · intro hz
    exact hmem z hz.1

theorem regionCells_nodup (g : Grid) (s : Nat × Nat) :
    (regionCells g s).Nodup := by
  unfold regionCells
  cases hout : bfsAux g (bfsFuel g) [s] [] with
  | none => simp
  | some out => simpa using bfsAux_nodup hout List.nodup_nil

/-! ## Claim C9 (termination of region growth) -/

/-- C9: for every finite grid and every start coordinate, the BFS of
`_find_continuous_region` reaches an empty queue within
`24 * |populated cells| + 2` loop iterations (so the expansion of every
region terminates, and the outer scan — structural recursion over the
finite coordinate list — completes). -/
theorem claim9_termination (g : Grid) (start : Nat × Nat) :
    (bfsAux g (bfsFuel g) [start] []).isSome := by
  have hk : (g.support.filter
      (fun x => x ∉ ([] : List (Nat × Nat)))).length ≤ g.support.length :=
    List.length_filter_le _ _
  apply bfsAux_isSome
  unfold bfsFuel
  simp only [List.length_singleton]
  omega

theorem detectAux_master {g : Grid} (hWF : g.WF) :
    ∀ (scan visited : List (Nat × Nat)) (tables : List Region),
      DetectInv g visited tables →
      DetectInv g (detectAux g scan visited tables).1
        (detectAux g scan visited tables).2 ∧
      (∀ x ∈ visited, x ∈ (detectAux g scan visited tables).1) ∧
      (∀ p ∈ scan, (g.val p).isSome → p ∈ (detectAux g scan visited tables).1) ∧
      (∀ t ∈ tables, t ∈ (detectAux g scan visited tables).2) ∧
      (∀ t ∈ (detectAux g scan visited tables).2,
        t ∈ tables ∨ ∃ s : Nat × Nat, (g.val s).isSome ∧
          1 < (regionCells g s).length ∧
          t = findContinuousRegion g s.1 s.2) := by
  intro scan
  induction scan with
  | nil =>
    intro visited tables hinv
    refine ⟨hinv, fun x hx => hx, ?_, fun t ht => ht, fun t ht => Or.inl ht⟩
    intro p hp
    cases hp
  | cons p rest ih =>
    intro visited tables hinv
    obtain ⟨hA, hB, hC, hD, hE, hG⟩ := hinv
    by_cases hcond : (g.val p).isSome ∧ p ∉ visited
    · obtain ⟨hpsome, hpnew⟩ := hcond
      have hspec := regionCells_spec (g := g) (s := p) hpsome
      have hpcs : p ∈ regionCells g p :=
        (hspec p).mpr ⟨Relation.ReflTransGen.refl, hpsome⟩
      have hA' : ∀ x ∈ visited ++ regionCells g p, (g.val x).isSome := by
        intro x hx
        rcases List.mem_append.mp hx with h' | h'
        · exact hA x h'
        · exact ((hspec x).mp h').2
      have hB' : ∀ x ∈ visited ++ regionCells g p, ∀ z, Adj g x z →
          z ∈ visited ++ regionCells g p := by
        intro x hx z hadj
        rcases List.mem_append.mp hx with h' | h'
        · exact List.mem_append_left _ (hB x h' z hadj)
        · refine List.mem_append_right _ ((hspec z).mpr ⟨?_, hadj.2.1⟩)
          exact Relation.ReflTransGen.tail ((hspec x).mp h').1 hadj
      have hdisj : ∀ t ∈ tables, ∀ z ∈ Region.cells t,
          z ∉ regionCells g p := by
        intro t ht z hz hzc
        have hzvis : z ∈ visited := hD t ht z hz
        have hreach : Reach g p z := ((hspec z).mp hzc).1
        exact hpnew (mem_of_reach_of_closed hB hzvis (reach_symm hWF hreach))
      have hDbase : ∀ t ∈ tables, ∀ z ∈ Region.cells t,
          z ∈ visited ++ regionCells g p :=
        fun t ht z hz => List.mem_append_left _ (hD t ht z hz)
      simp only [detectAux]
      rw [if_pos ⟨hpsome, hpnew⟩]
      by_cases hgt : (findContinuousRegion g p.1 p.2).cellCount > 1
      · rw [if_pos hgt]
        have hlen : 1 < (regionCells g p).length := hgt
        have hC' : List.Pairwise
            (fun t u => ∀ z ∈ Region.cells t, z ∉ Region.cells u)
            (tables ++ [findContinuousRegion g p.1 p.2]) := by
          rw [List.pairwise_append]
          refine ⟨hC, by simp, ?_⟩
          intro t ht u hu
          rw [List.mem_singleton] at hu
          subst hu
          intro z hz
          exact hdisj t ht z hz
        have hD' : ∀ t ∈ tables ++ [findContinuousRegion g p.1 p.2],
            ∀ z ∈ Region.cells t, z ∈ visited ++ regionCells g p := by
          intro t ht z hz
          rcases List.mem_append.mp ht with h' | h'
          · exact hDbase t h' z hz
          · rw [List.mem_singleton] at h'
            subst h'
            exact List.mem_append_right _ hz
        have hE' : ∀ x ∈ visited ++ regionCells g p, (∃ z, Adj g x z) →
            ∃ t ∈ tables ++ [findContinuousRegion g p.1 p.2],
              x ∈ Region.cells t := by
          intro x hx hex
          rcases List.mem_append.mp hx with h' | h'
          · obtain ⟨t, ht, hxt⟩ := hE x h' hex
            exact ⟨t, List.mem_append_left _ ht, hxt⟩
          · exact ⟨findContinuousRegion g p.1 p.2,
              List.mem_append_right _ (List.mem_singleton_self _), h'⟩
        have hG' : ∀ t ∈ tables ++ [findContinuousRegion g p.1 p.2],
            ∀ x ∈ Region.cells t, ∃ z, Adj g x z := by
          intro t ht x hx
          rcases List.mem_append.mp ht with h' | h'
          · exact hG t h' x hx
          · rw [List.mem_singleton] at h'
            subst h'
            have hx' : x ∈ regionCells g p := hx
            obtain ⟨y, hy, hyx⟩ :=
              exists_ne_of_one_lt_length (regionCells_nodup g p) hx' hlen
            have hxy : Reach g x y :=
              Relation.ReflTransGen.trans
                (reach_symm hWF ((hspec x).mp hx').1) ((hspec y).mp hy).1
            rcases Relation.ReflTransGen.cases_head hxy with heq | ⟨c, hc, -⟩
            · exact absurd heq.symm hyx
            · exact ⟨c, hc⟩
        obtain ⟨ihinv, ihsub, ihscan, ihmono, ihorig⟩ :=
          ih (visited ++ regionCells g p)
            (tables ++ [findContinuousRegion g p.1 p.2])
            ⟨hA', hB', hC', hD', hE', hG'⟩
        refine ⟨ihinv, ?_, ?_, ?_, ?_⟩
        · exact fun x hx => ihsub x (List.mem_append_left _ hx)
        · intro q hq hqsome
          rcases List.mem_cons.mp hq with rfl | hq'
          · exact ihsub q (List.mem_append_right _ hpcs)
          · exact ihscan q hq' hqsome
        · exact fun t ht => ihmono t (List.mem_append_left _ ht)
        · intro t ht
          rcases ihorig t ht with ht' | ht'
          · rcases List.mem_append.mp ht' with h' | h'
            · exact Or.inl h'
            · rw [List.mem_singleton] at h'
              subst h'
              exact Or.inr ⟨p, hpsome, hlen, rfl⟩
          · exact Or.inr ht'
      · rw [if_neg hgt]
        have hlen1 : (regionCells g p).length = 1 := by
          have h1 : (regionCells g p) ≠ [] := List.ne_nil_of_mem hpcs
          have h2 : 0 < (regionCells g p).length := List.length_pos.mpr h1
          have h3 : ¬ 1 < (regionCells g p).length := hgt
          omega
        have hcsp : regionCells g p = [p] := by
          rcases List.length_eq_one.mp hlen1 with ⟨a, ha⟩
          have := hpcs
          rw [ha, List.mem_singleton] at this
          rw [ha, this]
        have hE' : ∀ x ∈ visited ++ regionCells g p, (∃ z, Adj g x z) →
            ∃ t ∈ tables, x ∈ Region.cells t := by
          intro x hx hex
          rcases List.mem_append.mp hx with h' | h'
          · exact hE x h' hex
          · exfalso
            rw [hcsp, List.mem_singleton] at h'
            subst h'
            obtain ⟨z, hz⟩ := hex
            have hzc : z ∈ regionCells g x :=
              (hspec z).mpr ⟨Relation.ReflTransGen.single hz, hz.2.1⟩
            rw [hcsp, List.mem_singleton] at hzc
            subst hzc
            exact adj_irrefl g z hz
        obtain ⟨ihinv, ihsub, ihscan, ihmono, ihorig⟩ :=
          ih (visited ++ regionCells g p) tables
            ⟨hA', hB', hC, hDbase, hE', hG⟩
        refine ⟨ihinv, fun x hx => ihsub x (List.mem_append_left _ hx),
          ?_, ihmono, ihorig⟩
        intro q hq hqsome
        rcases List.mem_cons.mp hq with rfl | hq'
        · exact ihsub q (List.mem_append_right _ hpcs)
        · exact ihscan q hq' hqsome
    · simp only [detectAux]
      rw [if_neg hcond]
      obtain ⟨ihinv, ihsub, ihscan, ihmono, ihorig⟩ :=
        ih visited tables ⟨hA, hB, hC, hD, hE, hG⟩
      refine ⟨ihinv, ihsub, ?_, ihmono, ihorig⟩
      intro q hq hqsome
      rcases List.mem_cons.mp hq with rfl | hq'
      · have hpv : q ∈ visited := by
          by_contra hnv
          exact hcond ⟨hqsome, hnv⟩
        exact ihsub q hpv
      · exact ihscan q hq' hqsome

theorem detectInv_nil (g : Grid) : DetectInv g [] [] := by
  refine ⟨?_, ?_, List.Pairwise.nil, ?_, ?_, ?_⟩
  · intro p hp; cases hp
  · intro p hp; cases hp
  · intro t ht; cases ht
  · intro p hp; cases hp
  · intro t ht; cases ht

/-! ## Claim C3 (regions partition the populated cells) -/

/-- C3: region detection partitions the populated cells. The reported
regions are pairwise cell-disjoint (no populated cell belongs to two
reported regions); every populated cell with at least one other
populated cell within the bounded-radius adjacency belongs to some
(hence, by disjointness, exactly one) reported region; and a populated
cell with no such neighbour — a singleton cluster, discarded by the
`cell_count > 1` test — belongs to no reported region. `scan` is the
row-major coordinate enumeration of the sheet, assumed to cover every
populated cell. -/
theorem claim3_partition (g : Grid) (scan : List (Nat × Nat)) (hWF : g.WF)
    (hscan : ∀ p ∈ g.support, p ∈ scan) :
    List.Pairwise (fun t u => ∀ z ∈ Region.cells t, z ∉ Region.cells u)
      (detectTableStructure g scan) ∧
    (∀ p : Nat × Nat, (g.val p).isSome → (∃ z, Adj g p z) →
      ∃ t ∈ detectTableStructure g scan, p ∈ Region.cells t) ∧
    (∀ p : Nat × Nat, (g.val p).isSome → ¬ (∃ z, Adj g p z) →
      ∀ t ∈ detectTableStructure g scan, p ∉ Region.cells t) := by
  obtain ⟨hinv, hsub, hmem, hmono, horig⟩ :=
    detectAux_master hWF scan [] [] (detectInv_nil g)
  obtain ⟨hA, hB, hC, hD, hE, hG⟩ := hinv
  refine ⟨hC, ?_, ?_⟩
  · intro p hp hadj
    have hpv : p ∈ (detectAux g scan [] []).1 :=
      hmem p (hscan p (Grid.mem_support_of_val_isSome hp)) hp
    exact hE p hpv hadj
  · intro p hp hno t ht hpt
    exact hno (hG t ht p hpt)

theorem claim3_witness :
    gPair.WF ∧ (∀ p ∈ gPair.support, p ∈ scanPair) ∧
    (∃ t ∈ detectTableStructure gPair scanPair,
      ((1, 1) : Nat × Nat) ∈ Region.cells t) :=
  ⟨by decide, by decide,
    (claim3_partition gPair scanPair (by decide) (by decide)).2.1 (1, 1)
      (by decide) ⟨(1, 2), by decide⟩⟩

/-! ## Claim C8 (tight bounding boxes) -/

theorem foldl_min_le_init (l : List Nat) : ∀ a, l.foldl min a ≤ a := by
  induction l with
  | nil => intro a; exact le_rfl
  | cons b l ih => intro a; exact le_trans (ih (min a b)) (min_le_left a b)

theorem foldl_min_le_mem (l : List Nat) : ∀ a, ∀ x ∈ l, l.foldl min a ≤ x := by
  induction l with
  | nil => intro a x hx; cases hx
  | cons b l ih =>
    intro a x hx
    rcases List.mem_cons.mp hx with rfl | hx'
    · exact le_trans (foldl_min_le_init l (min a x)) (min_le_right a x)
    · exact ih (min a b) x hx'

theorem foldl_min_mem (l : List Nat) :
    ∀ a, l.foldl min a = a ∨ l.foldl min a ∈ l := by
  induction l with
  | nil => intro a; exact Or.inl rfl
  | cons b l ih =>
    intro a
    rcases ih (min a b) with h | h
    · rcases min_choice a b with h' | h'
      · exact Or.inl (by rw [List.foldl_cons, h, h'])
      · refine Or.inr ?_
        rw [List.foldl_cons, h, h']
        exact List.mem_cons_self b l
    · refine Or.inr (List.mem_cons_of_mem _ ?_)
      rw [List.foldl_cons]
      exact h

theorem foldl_max_ge_init (l : List Nat) : ∀ a, a ≤ l.foldl max a := by
  induction l with
  | nil => intro a; exact le_rfl
  | cons b l ih => intro a; exact le_trans (le_max_left a b) (ih (max a b))

theorem foldl_max_ge_mem (l : List Nat) : ∀ a, ∀ x ∈ l, x ≤ l.foldl max a := by
  induction l with
  | nil => intro a x hx; cases hx
  | cons b l ih =>
    intro a x hx
    rcases List.mem_cons.mp hx with rfl | hx'
    · exact le_trans (le_max_right a x) (foldl_max_ge_init l (max a x))
    · exact ih (max a b) x hx'

theorem foldl_max_mem (l : List Nat) :
    ∀ a, l.foldl max a = a ∨ l.foldl max a ∈ l := by
  induction l with
  | nil => intro a; exact Or.inl rfl
  | cons b l ih =>
    intro a
    rcases ih (max a b) with h | h
    · rcases max_choice a b with h' | h'
      · exact Or.inl (by rw [List.foldl_cons, h, h'])
      · refine Or.inr ?_
        rw [List.foldl_cons, h, h']
        exact List.mem_cons_self b l
    · refine Or.inr (List.mem_cons_of_mem _ ?_)
      rw [List.foldl_cons]
      exact h

/-- C8: every reported region's bounding box is tight: it contains all
member cells, and each of the four bounds is achieved by at least one
member cell. -/
theorem claim8_tight_bounds (g : Grid) (scan : List (Nat × Nat))
    (hWF : g.WF) (t : Region) (ht : t ∈ detectTableStructure g scan) :
    TightBounds t := by
  obtain ⟨-, -, -, -, horig⟩ :=
    detectAux_master hWF scan [] [] (detectInv_nil g)
  rcases horig t ht with ht' | ⟨s, hsome, hlen, rfl⟩
  · cases ht'
  · have hspec := regionCells_spec (g := g) (s := s) hsome
    have hsmem : s ∈ regionCells g s :=
      (hspec s).mpr ⟨Relation.ReflTransGen.refl, hsome⟩
    have hminR : Region.minRow (findContinuousRegion g s.1 s.2) =
        ((regionCells g s).map Prod.fst).foldl min s.1 := by
      rw [List.foldl_map]
      rfl
    have hmaxR : Region.maxRow (findContinuousRegion g s.1 s.2) =
        ((regionCells g s).map Prod.fst).foldl max s.1 := by
      rw [List.foldl_map]
      rfl
    have hminC : Region.minCol (findContinuousRegion g s.1 s.2) =
        ((regionCells g s).map Prod.snd).foldl min s.2 := by
      rw [List.foldl_map]
      rfl
    have hmaxC : Region.maxCol (findContinuousRegion g s.1 s.2) =
        ((regionCells g s).map Prod.snd).foldl max s.2 := by
      rw [List.foldl_map]
      rfl
    refine ⟨?_, ?_, ?_, ?_, ?_⟩
    · intro c hc
      have hc' : c ∈ regionCells g s := hc
      refine ⟨?_, ?_, ?_, ?_⟩
      · rw [hminR]
        exact foldl_min_le_mem _ _ _ (List.mem_map_of_mem Prod.fst hc')
      · rw [hmaxR]
        exact foldl_max_ge_mem _ _ _ (List.mem_map_of_mem Prod.fst hc')
      · rw [hminC]
        exact foldl_min_le_mem _ _ _ (List.mem_map_of_mem Prod.snd hc')
      · rw [hmaxC]
        exact foldl_max_ge_mem _ _ _ (List.mem_map_of_mem Prod.snd hc')
    · rcases foldl_min_mem ((regionCells g s).map Prod.fst) s.1 with h | h
      · exact ⟨s, hsmem, by rw [hminR, h]⟩
      · obtain ⟨c, hc, hceq⟩ := List.mem_map.mp h
        exact ⟨c, hc, by rw [hminR]; exact hceq⟩
    · rcases foldl_max_mem ((regionCells g s).map Prod.fst) s.1 with h | h
      · exact ⟨s, hsmem, by rw [hmaxR, h]⟩
      · obtain ⟨c, hc, hceq⟩ := List.mem_map.mp h
        exact ⟨c, hc, by rw [hmaxR]; exact hceq⟩
    · rcases foldl_min_mem ((regionCells g s).map Prod.snd) s.2 with h | h
      · exact ⟨s, hsmem, by rw [hminC, h]⟩
      · obtain ⟨c, hc, hceq⟩ := List.mem_map.mp h
        exact ⟨c, hc, by rw [hminC]; exact hceq⟩
    · rcases foldl_max_mem ((regionCells g s).map Prod.snd) s.2 with h | h
      · exact ⟨s, hsmem, by rw [hmaxC, h]⟩
      · obtain ⟨c, hc, hceq⟩ := List.mem_map.mp h
        exact ⟨c, hc, by rw [hmaxC]; exact hceq⟩

theorem claim8_witness :
    gPair.WF ∧ regionPair ∈ detectTableStructure gPair scanPair ∧
    TightBounds regionPair :=
  ⟨by decide, by decide,
    claim8_tight_bounds gPair scanPair (by decide) regionPair (by decide)⟩

/-! ## Claim C1 (pagination of rows 1-12 with rowsPerPage 5, overlap 2) -/

/-- C1, counterexample: with `rowsPerPage = 5`, `overlap = 2` and data
spanning rows 1-12, the code does NOT produce exactly two row-tiles
(`ceil(12 / 5) = 3` of them are produced, and the second is overlap
extended). -/
theorem claim1_counterexample : (rowTiles 1 12 5 2).length ≠ 2 := by decide

/-- C1, amended: with `rowsPerPage = 5`, `overlap = 2` and data spanning
rows 1-12, pagination produces exactly three row-tiles: rows 1-7 (core
1-5 extended by the overlap), rows 6-12 (core 6-10 extended by the
overlap, clamped to row 12), and rows 11-12 (last tile, never extended);
rows 6-7 appear in both of the first two tiles. -/
theorem claim1_row_tiling :
    rowTiles 1 12 5 2 = [(1, 7), (6, 12), (11, 12)] := by decide

/-! ## Claim C5 (overlap extension rule) -/

/-- C5: along one axis, a tile that is not the last has its final upper
bound equal to the core upper bound plus `overlap`, clamped to the data
maximum; the last tile's final upper bound equals its core upper bound,
with no extension; lower bounds are never altered. -/
theorem claim5_overlap_extension (minV maxV per ov i : Nat) :
    (pageRange minV maxV per ov i).1 = (coreRange minV maxV per i).1 ∧
    (i < numPages minV maxV per - 1 →
      (pageRange minV maxV per ov i).2 =
        min ((coreRange minV maxV per i).2 + ov) maxV) ∧
    (i = numPages minV maxV per - 1 →
      (pageRange minV maxV per ov i).2 = (coreRange minV maxV per i).2) := by
  refine ⟨?_, fun h => ?_, fun h => ?_⟩
  · unfold pageRange
    split <;> rfl
  · simp [pageRange, h]
  · have h' : ¬ i < numPages minV maxV per - 1 := by omega
    simp [pageRange, h']

theorem claim5_witness :
    (pageRange 1 12 5 2 0).2 = min ((coreRange 1 12 5 0).2 + 2) 12 ∧
    (pageRange 1 12 5 2 2).2 = (coreRange 1 12 5 2).2 :=
  ⟨(claim5_overlap_extension 1 12 5 2 0).2.1 (by decide),
   (claim5_overlap_extension 1 12 5 2 2).2.2 (by decide)⟩

/-! ## Claim C2 (header-detection threshold) -/

/-- C2: when the inspected top row has at least one populated cell,
header detection returns `true` exactly when the fraction of text cells
among its populated cells strictly exceeds 7/10; a row with no populated
cell yields `false`; and on a row with 10 populated cells of which
exactly 7 are text (exactly 70%), it returns `false`. -/
theorem claim2_header_threshold (g : Grid) (row minCol maxCol : Nat) :
    (0 < headerTotal g row minCol maxCol →
      (detectHeaderRow g row minCol maxCol = true ↔
        (7 : ℚ) / 10 <
          (headerTexts g row minCol maxCol : ℚ) /
            (headerTotal g row minCol maxCol : ℚ))) ∧
    (headerTotal g row minCol maxCol = 0 →
      detectHeaderRow g row minCol maxCol = false) ∧
    (headerTotal gRow70 1 1 10 = 10 ∧ headerTexts gRow70 1 1 10 = 7 ∧
      detectHeaderRow gRow70 1 1 10 = false) := by
  refine ⟨fun h => ?_, fun h => ?_, by decide⟩
  · unfold detectHeaderRow
    rw [if_pos h]
    simp only [decide_eq_true_eq]
    have hT : (0 : ℚ) < (headerTotal g row minCol maxCol : ℚ) := by
      exact_mod_cast h
    rw [div_lt_div_iff₀ (by norm_num) hT,
      mul_comm ((headerTexts g row minCol maxCol : ℚ)) 10]
    exact_mod_cast Iff.rfl
  · simp [detectHeaderRow, h]

theorem claim2_witness :
    0 < headerTotal gRow70 1 1 10 ∧
    (detectHeaderRow gRow70 1 1 10 = true ↔
      (7 : ℚ) / 10 <
        (headerTexts gRow70 1 1 10 : ℚ) / (headerTotal gRow70 1 1 10 : ℚ)) :=
  ⟨by decide, (claim2_header_threshold gRow70 1 1 10).1 (by decide)⟩

/-! ## Claim C6 (orientation inference) -/

/-- C6, counterexample: a materialized table with zero headers keeps
`alignment = "unknown"`; it is not classified `"horizontal"` as the
claim states. -/
theorem claim6_counterexample :
    (extractTableData gKV ⟨1, 2, 1, 1⟩ false "General").headers.length = 0 ∧
    (extractTableData gKV ⟨1, 2, 1, 1⟩ false "General").alignment ≠ "horizontal" := by
  constructor
  · rfl
  · decide

/-- C6, amended: when at least one header was extracted, orientation is
`"vertical"` if there are strictly more data rows than headers and
`"horizontal"` otherwise; when no header was extracted (in particular
for any region with `has_header = false`), orientation remains
`"unknown"`. -/
theorem claim6_orientation (g : Grid) (b : Bounds) (hh : Bool) (nf : String) :
    (0 < (extractTableData g b hh nf).headers.length →
      ((extractTableData g b hh nf).data.length >
          (extractTableData g b hh nf).headers.length →
        (extractTableData g b hh nf).alignment = "vertical") ∧
      (¬ (extractTableData g b hh nf).data.length >
          (extractTableData g b hh nf).headers.length →
        (extractTableData g b hh nf).alignment = "horizontal")) ∧
    ((extractTableData g b hh nf).headers.length = 0 →
      (extractTableData g b hh nf).alignment = "unknown") := by
  simp only [extractTableData]
  refine ⟨fun h1 => ⟨fun h2 => ?_, fun h2 => ?_⟩, fun h0 => ?_⟩
  · rw [if_pos h1, if_pos h2]
  · rw [if_pos h1, if_neg h2]
  · rw [if_neg (by omega)]

theorem claim6_witness :
    0 < (extractTableData gRow70 ⟨1, 1, 1, 10⟩ true "General").headers.length ∧
    ¬ (extractTableData gRow70 ⟨1, 1, 1, 10⟩ true "General").data.length >
        (extractTableData gRow70 ⟨1, 1, 1, 10⟩ true "General").headers.length ∧
    (extractTableData gRow70 ⟨1, 1, 1, 10⟩ true "General").alignment = "horizontal" :=
  ⟨by decide, by decide,
    ((claim6_orientation gRow70 ⟨1, 1, 1, 10⟩ true "General").1
      (by decide)).2 (by decide)⟩

/-! ## Claim C7 (cell-value formatting) -/

/-- C7: booleans format as `"Yes"`/`"No"`; a numeric (int or float)
value under a number format containing `'%'` formats as the value times
100 rendered with exactly one decimal place followed by `'%'` (so `0.25`
yields `"25.0%"`); any other float renders with exactly two decimal
places; any other int renders as its plain decimal digits (with a sign
for negatives); and text renders as itself. -/
theorem claim7_formatting (b : Bool) (n : Int) (q : ℚ) (s nf : String) :
    formatCellValue (some (.boolVal b)) nf = (if b then "Yes" else "No") ∧
    (percentFormat nf = true →
      formatCellValue (some (.floatVal q)) nf = formatFixed (q * 100) 1 ++ "%" ∧
      formatCellValue (some (.intVal n)) nf =
        formatFixed ((n : ℚ) * 100) 1 ++ "%" ∧
      fixedShape (formatFixed (q * 100) 1) 1) ∧
    formatCellValue (some (.floatVal (1 / 4))) "0.00%" = "25.0%" ∧
    (percentFormat nf = false →
      formatCellValue (some (.floatVal q)) nf = formatFixed q 2 ∧
      fixedShape (formatFixed q 2) 2 ∧
      formatCellValue (some (.intVal n)) nf = intStr n ∧
      (∀ c ∈ (intStr n).toList, c.isDigit ∨ c = '-')) ∧
    formatCellValue (some (.text s)) nf = s := by
  refine ⟨rfl, fun h => ⟨?_, ?_, formatFixed_shape _ (by norm_num)⟩, ?_,
    fun h => ⟨?_, formatFixed_shape _ (by norm_num), ?_, ?_⟩, rfl⟩
  · simp [formatCellValue, h]
  · simp [formatCellValue, h]
  · have hp : percentFormat "0.00%" = true := by decide
    simp only [formatCellValue, hp, if_true]
    rw [formatFixed_quarter]
    rfl
  · simp [formatCellValue, h]
  · simp [formatCellValue, h]
  · intro c hc
    unfold intStr at hc
    have hc' : c ∈ (if n < 0 then "-" else "").data ++ (natStr n.natAbs).data := hc
    rcases List.mem_append.mp hc' with h' | h'
    · right
      split at h'
      · have : c ∈ ['-'] := h'
        simpa using this
      · have : c ∈ ([] : List Char) := h'
        simp at this
    · left; exact natStr_chars _ c h'

theorem claim7_witness :
    percentFormat "0.0%" = true ∧
    formatCellValue (some (.floatVal (1 / 4))) "0.0%" =
      formatFixed ((1 / 4 : ℚ) * 100) 1 ++ "%" :=
  ⟨by decide, ((claim7_formatting true 3 (1 / 4) "x" "0.0%").2.1 (by decide)).1⟩

/-! ## Claim C4 (core tiles partition the bounding box) -/

theorem tile_index_unique {per x i j : Nat} (hi1 : i * per ≤ x)
    (hi2 : x < i * per + per) (hj1 : j * per ≤ x)
    (hj2 : x < j * per + per) : i = j := by
  rcases Nat.lt_trichotomy i j with h | h | h
  · exfalso
    have hle : (i + 1) * per ≤ j * per := Nat.mul_le_mul_right per h
    rw [Nat.succ_mul] at hle
    omega
  · exact h
  · exfalso
    have hle : (j + 1) * per ≤ i * per := Nat.mul_le_mul_right per h
    rw [Nat.succ_mul] at hle
    omega

theorem numPages_spec {minV maxV per : Nat} (h0 : 0 < per) :
    maxV - minV + 1 ≤ numPages minV maxV per * per ∧
    numPages minV maxV per * per ≤ (maxV - minV + 1) + per - 1 := by
  unfold numPages
  have hdm := Nat.div_add_mod ((maxV - minV + 1) + per - 1) per
  have hm : ((maxV - minV + 1) + per - 1) % per < per := Nat.mod_lt _ h0
  rw [Nat.mul_comm]
  generalize hP : per * (((maxV - minV + 1) + per - 1) / per) = P at hdm ⊢
  omega

theorem core_start_le {minV maxV per i : Nat} (h0 : 0 < per)
    (hle : minV ≤ maxV)
    (hi : i < numPages minV maxV per) : minV + i * per ≤ maxV := by
  have hNP := @numPages_spec minV maxV per h0
  have hmul : (i + 1) * per ≤ numPages minV maxV per * per :=
    Nat.mul_le_mul_right per hi
  rw [Nat.succ_mul] at hmul
  omega

theorem coreRange_mem_iff {minV maxV per : Nat} (h0 : 0 < per) (i r : Nat)
    (hr1 : minV ≤ r) (hr2 : r ≤ maxV) :
    ((coreRange minV maxV per i).1 ≤ r ∧ r ≤ (coreRange minV maxV per i).2) ↔
      (i * per ≤ r - minV ∧ r - minV < i * per + per) := by
  unfold coreRange
  simp only
  omega

theorem axis_core_cover {minV maxV per : Nat} (h0 : 0 < per) {r : Nat}
    (hr1 : minV ≤ r) (hr2 : r ≤ maxV) :
    ∃! i : Nat, i < numPages minV maxV per ∧
      (coreRange minV maxV per i).1 ≤ r ∧ r ≤ (coreRange minV maxV per i).2 := by
  have hNP := @numPages_spec minV maxV per h0
  have hdm := Nat.div_add_mod (r - minV) per
  have hdm' : ((r - minV) / per) * per + (r - minV) % per = r - minV := by
    rw [Nat.mul_comm]; exact hdm
  have hm : (r - minV) % per < per := Nat.mod_lt _ h0
  refine ⟨(r - minV) / per, ⟨?_, ?_⟩, ?_⟩
  · have hlt : ((r - minV) / per) * per < numPages minV maxV per * per := by
      omega
    exact Nat.lt_of_mul_lt_mul_right hlt
  · exact (coreRange_mem_iff h0 _ r hr1 hr2).mpr (by omega)
  · intro j ⟨hjN, hj⟩
    have hj' := (@coreRange_mem_iff minV maxV per h0 j r hr1 hr2).mp hj
    exact tile_index_unique hj'.1 hj'.2 (by omega) (by omega)

theorem pageRange_subset {minV maxV per ov i : Nat} (h0 : 0 < per)
    (hle : minV ≤ maxV) (hi : i < numPages minV maxV per) :
    minV ≤ (pageRange minV maxV per ov i).1 ∧
    (pageRange minV maxV per ov i).2 ≤ maxV ∧
    (pageRange minV maxV per ov i).1 ≤ (pageRange minV maxV per ov i).2 := by
  have hkey : minV + i * per ≤ maxV := core_start_le h0 hle hi
  unfold pageRange coreRange
  split <;> simp only <;> omega

/-- C4: for every non-empty data bounding box and positive page sizes,
each cell of the bounding box lies in exactly one core (pre-extension)
page rectangle — so the cores tile the box with no gaps and no
double-covered cell — and every final (overlap-extended) page rectangle
is a non-empty sub-rectangle of the bounding box. -/
theorem claim4_core_partition (minR maxR minC maxC rpp cpp : Nat)
    (hrpp : 0 < rpp) (hcpp : 0 < cpp) (hr : minR ≤ maxR) (hc : minC ≤ maxC) :
    (∀ r c, minR ≤ r → r ≤ maxR → minC ≤ c → c ≤ maxC →
      ∃! ij : Nat × Nat,
        ij.1 < numPages minR maxR rpp ∧ ij.2 < numPages minC maxC cpp ∧
        (coreRange minR maxR rpp ij.1).1 ≤ r ∧
        r ≤ (coreRange minR maxR rpp ij.1).2 ∧
        (coreRange minC maxC cpp ij.2).1 ≤ c ∧
        c ≤ (coreRange minC maxC cpp ij.2).2) ∧
    (∀ ov i j, i < numPages minR maxR rpp → j < numPages minC maxC cpp →
      (minR ≤ (pageRange minR maxR rpp ov i).1 ∧
        (pageRange minR maxR rpp ov i).1 ≤ (pageRange minR maxR rpp ov i).2 ∧
        (pageRange minR maxR rpp ov i).2 ≤ maxR) ∧
      (minC ≤ (pageRange minC maxC cpp ov j).1 ∧
        (pageRange minC maxC cpp ov j).1 ≤ (pageRange minC maxC cpp ov j).2 ∧
        (pageRange minC maxC cpp ov j).2 ≤ maxC)) := by
  constructor
  · intro r c hr1 hr2 hc1 hc2
    obtain ⟨i, hi, hiu⟩ := axis_core_cover hrpp hr1 hr2
    obtain ⟨j, hj, hju⟩ := axis_core_cover hcpp hc1 hc2
    refine ⟨(i, j), ⟨hi.1, hj.1, hi.2.1, hi.2.2, hj.2.1, hj.2.2⟩, ?_⟩
    rintro ⟨i', j'⟩ ⟨h1, h2, h3, h4, h5, h6⟩
    exact Prod.ext (hiu i' ⟨h1, h3, h4⟩) (hju j' ⟨h2, h5, h6⟩)
  · intro ov i j hi hj
    have h1 := @pageRange_subset minR maxR rpp ov i hrpp hr hi
    have h2 := @pageRange_subset minC maxC cpp ov j hcpp hc hj
    exact ⟨⟨h1.1, h1.2.2, h1.2.1⟩, ⟨h2.1, h2.2.2, h2.2.1⟩⟩

theorem claim4_witness :
    ∃! ij : Nat × Nat, ij.1 < numPages 1 12 5 ∧ ij.2 < numPages 1 8 10 ∧
      (coreRange 1 12 5 ij.1).1 ≤ 7 ∧ 7 ≤ (coreRange 1 12 5 ij.1).2 ∧
      (coreRange 1 8 10 ij.2).1 ≤ 3 ∧ 3 ≤ (coreRange 1 8 10 ij.2).2 :=
  (claim4_core_partition 1 12 1 8 5 10 (by decide) (by decide) (by decide)
    (by decide)).1 7 3 (by decide) (by decide) (by decide) (by decide)

/-! ## Claim C10 (primary pipeline never produces tables or merges) -/

/-- C10: for every sheet, `extract_structured_data` returns empty
`tables` and `merged` lists; consequently every generated page has empty
`tables` and `merged` members with `table_count = 0` and
`merged_count = 0`, and the paginated export's `meta` has
`total_tables = 0` and `total_merged = 0`, regardless of the sheet's
contents. -/
theorem claim10_empty_tables (g : Grid) (pa : Option Bounds)
    (rpp cpp ov : Nat) :
    (extractStructuredData g pa).tables = [] ∧
    (extractStructuredData g pa).merged = [] ∧
    (∀ page ∈ (exportForAIProcessing g pa rpp cpp ov).2,
      page.tables = [] ∧ page.merged = [] ∧
      page.tableCount = 0 ∧ page.mergedCount = 0) ∧
    (exportForAIProcessing g pa rpp cpp ov).1.totalTables = 0 ∧
    (exportForAIProcessing g pa rpp cpp ov).1.totalMerged = 0 := by
  refine ⟨rfl, rfl, ?_, rfl, rfl⟩
  intro page hp
  have hp' : page ∈ createPagedVisualizationsWithData
      (extractStructuredData g pa) rpp cpp ov := hp
  unfold createPagedVisualizationsWithData at hp'
  cases hdb : (extractStructuredData g pa).dataBounds with
  | none => rw [hdb] at hp'; simp at hp'
  | some b =>
    rw [hdb] at hp'
    rw [List.mem_flatMap] at hp'
    obtain ⟨i, _, hp''⟩ := hp'
    rw [List.mem_map] at hp''
    obtain ⟨j, _, rfl⟩ := hp''
    refine ⟨?_, ?_, ?_, ?_⟩ <;>
      simp [extractStructuredData]

theorem claim10_witness :
    (exportForAIProcessing gPair none 5 10 2).1.totalTables = 0 ∧
    (exportForAIProcessing gPair none 5 10 2).1.totalMerged = 0 ∧
    pagePair ∈ (exportForAIProcessing gPair none 5 10 2).2 ∧
    pagePair.tables = [] :=
  ⟨(claim10_empty_tables gPair none 5 10 2).2.2.2.1,
   (claim10_empty_tables gPair none 5 10 2).2.2.2.2,
   by decide,
   ((claim10_empty_tables gPair none 5 10 2).2.2.1 pagePair (by decide)).1⟩

end ExcelViz
